import Mathlib

/-!
Verification of the selection / highlight study (`src/study/selection.js`).

The script captures a user text selection in a DOM tree, isolates it into
standalone text leaves via `splitText`, encodes the boundary leaves into
structure-relative addresses, persists them, and on reload decodes the
addresses and re-highlights the text.

Embedding conventions:
* The DOM tree is the inductive `Node`: element nodes carry a tag, an inline
  style list and an ordered child list; text leaves carry a character list.
  Every node carries a numeric `id`; JS reference identity (`===`) between
  nodes of one document is modelled as id equality (documents in all theorems
  carry pairwise distinct ids).
* `document.getElementsByTagName`, `parentElement` and `textContent` lookups
  become pure traversals of the tree value.
* In-place DOM mutation (`splitText`, `replaceChild`) becomes a pure tree
  rewrite returning the new tree; the new node created by `splitText` gets an
  explicitly supplied fresh id.  The JS loops push a node's children onto the
  traversal stack before any mutation of that node happens, and no node that
  is still on the stack contains a subsequently mutated node in its subtree,
  so the stack of live references is faithfully modelled by a stack of
  immutable node values.
* The iterative stack-based loops of the source are embedded verbatim as
  stack recursions (`offsetGo`, `restoreGo`, `collectGo`); structurally
  recursive list twins plus equivalence lemmas are provided for evaluation
  and for the pre-order decomposition proofs.
* Fallible steps (indexed element lookup that can miss, JS code paths that
  would throw) return `Option`.
-/

namespace Study

/-- Text content is modelled as a list of characters. -/
abbrev Str := List Char

/-- A DOM node: an element with tag, inline style and ordered children, or a
text leaf with string content.  The numeric id models JS object identity. -/
inductive Node where
  | element (id : Nat) (tag : String) (style : List (String × String)) (children : List Node)
  | text (id : Nat) (content : Str)

/-- Identity of a node. -/
def idOf : Node → Nat
  | .element i _ _ _ => i
  | .text i _ => i

/-- Child list of a node (`childNodes`); text leaves have none. -/
def childrenOf : Node → List Node
  | .element _ _ _ cs => cs
  | .text _ _ => []

/-- Whether `nodeType === 3` (text node). -/
def isTextNode : Node → Bool
  | .text _ _ => true
  | .element _ _ _ _ => false

/-- Character data of a text node (`textContent` of a leaf); empty on elements. -/
def dataOf : Node → Str
  | .text _ c => c
  | .element _ _ _ _ => []

/-- Tag name of an element (`tagName`); text leaves get the placeholder. -/
def tagOf : Node → String
  | .element _ t _ _ => t
  | .text _ _ => "#text"

/-- Project a text node to its (id, content) pair. -/
def textOf : Node → Option (Nat × Str)
  | .text i c => some (i, c)
  | .element _ _ _ _ => none

mutual

/-- Size of a node, used as termination measure for the stack loops. -/
def sizeN : Node → Nat
  | .element _ _ _ cs => 1 + sizeL cs
  | .text _ _ => 1

/-- Total size of a list of nodes. -/
def sizeL : List Node → Nat
  | [] => 0
  | n :: ns => sizeN n + sizeL ns

end

/-- Sizes add up over list concatenation. -/
lemma sizeL_append (a b : List Node) : sizeL (a ++ b) = sizeL a + sizeL b := by
  induction a with
  | nil => simp [sizeL]
  | cons n ns ih => simp [sizeL, ih, Nat.add_assoc]

/-- Popping a node and pushing its children shrinks the measure of the stack. -/
lemma sizeL_children_lt (n : Node) (rest : List Node) :
    sizeL (childrenOf n ++ rest) < sizeL (n :: rest) := by
  cases n <;> simp [sizeL, sizeN, childrenOf, sizeL_append]

mutual

/-- Document pre-order of the subtree rooted at a node: the node itself, then
the pre-orders of its children left to right.  This is the visiting order of
every stack loop in the source. -/
def preorder : Node → List Node
  | .element i t s cs => .element i t s cs :: preorderL cs
  | .text i c => [.text i c]

/-- Concatenated pre-orders of a forest. -/
def preorderL : List Node → List Node
  | [] => []
  | n :: ns => preorder n ++ preorderL ns

end

/-- Text leaves of a forest, in document order. -/
def leavesL (ns : List Node) : List (Nat × Str) := (preorderL ns).filterMap textOf

/-- Text leaves of the subtree rooted at a node, in document order. -/
def textLeaves (n : Node) : List (Nat × Str) := (preorder n).filterMap textOf

/-- Total character count of a list of leaves. -/
def sumLens (ls : List (Nat × Str)) : Nat := (ls.map (fun x => x.2.length)).sum

/-- Plain text of the whole subtree rooted at a node: leaf contents
concatenated in document order. -/
def fullText (n : Node) : Str := ((textLeaves n).map (fun x => x.2)).flatten

/-- Plain text of a forest. -/
def forestText (ns : List Node) : Str := ((leavesL ns).map (fun x => x.2)).flatten

/-- Character count of the text leaves strictly before the first node with the
given id in a node list (elements contribute nothing themselves). -/
def textBeforeL (nid : Nat) : List Node → Nat
  | [] => 0
  | n :: ns => if idOf n = nid then 0 else (dataOf n).length + textBeforeL nid ns

/-- Absolute character position at which the node with the given id starts,
within the plain text of the whole document. -/
def textBefore (root : Node) (nid : Nat) : Nat := textBeforeL nid (preorder root)

/-- Absolute plain-text position of a DOM boundary point (container, offset):
for a text container the offset counts characters inside the leaf, for an
element container it counts children, so the boundary sits after the text of
the first `off` children. -/
def boundaryAbs (root : Node) : Node → Nat → Nat
  | .text i _, off => textBefore root i + off
  | .element i _ _ cs, off => textBefore root i + (forestText (cs.take off)).length

/-- Plain-text content of the document lying between two absolute positions. -/
def plainTextBetween (root : Node) (a b : Nat) : Str :=
  ((fullText root).drop a).take (b - a)

/-- Predicate for `getElementsByTagName`: element node with the given tag. -/
def isElementWithTag (tag : String) : Node → Bool
  | .element _ t _ _ => t == tag
  | .text _ _ => false

/-- Model of `document.getElementsByTagName(tag)`: all elements with the tag,
in document order. -/
def elementsByTag (root : Node) (tag : String) : List Node :=
  (preorder root).filter (isElementWithTag tag)

/-- Resolve a node reference (JS object pointer) against the current tree. -/
def findNode (root : Node) (nid : Nat) : Option Node :=
  (preorder root).find? (fun n => idOf n == nid)

/-- Model of `node.parentElement`: the node whose child list contains the
given id.  Text leaves have no children, so the result is always an element. -/
def parentOf (root : Node) (cid : Nat) : Option Node :=
  (preorder root).find? (fun n => (childrenOf n).any (fun c => idOf c == cid))

mutual

/-- Model of `textNode.splitText(offset)` as a tree rewrite: the text node
with id `target` is replaced in its parent's child list by the prefix (keeping
the original id) followed by a fresh text node holding the suffix. -/
def splitTextAt (target offset freshId : Nat) : Node → Node
  | .text i c => .text i c
  | .element i t s cs => .element i t s (splitTextInChildren target offset freshId cs)

/-- Child-list part of `splitTextAt`. -/
def splitTextInChildren (target offset freshId : Nat) : List Node → List Node
  | [] => []
  | .text i c :: ns =>
    if i = target then
      .text i (c.take offset) :: .text freshId (c.drop offset) ::
        splitTextInChildren target offset freshId ns
    else .text i c :: splitTextInChildren target offset freshId ns
  | .element i t s cs :: ns =>
    splitTextAt target offset freshId (.element i t s cs) ::
      splitTextInChildren target offset freshId ns

end

/-- Position address stored for a boundary leaf (fields exactly as serialized
by the source). -/
structure Pos where
  parentTagName : String
  parentIndex : Nat
  textNodeOffset : Nat
  textNodeLength : Nat

/-- Stack loop of `getTextNodeOffset`: iterative depth-first traversal; text
leaves other than the target add their length, the target stops the loop. -/
def offsetGo (target : Nat) : List Node → Nat → Nat
  | [], offset => offset
  | n :: rest, offset =>
    if isTextNode n ∧ idOf n ≠ target then
      offsetGo target (childrenOf n ++ rest) (offset + (dataOf n).length)
    else if isTextNode n then offset
    else offsetGo target (childrenOf n ++ rest) offset
termination_by s _ => sizeL s
decreasing_by all_goals exact sizeL_children_lt n rest

/-- Source `getTextNodeOffset(parentElement, textNode)`: character offset of
the start of the text node within the parent's concatenated text content. -/
def getTextNodeOffset (parentElement : Node) (target : Nat) : Nat :=
  offsetGo target [parentElement] 0

/-- Source `getSelectedTextNodePosition(selectedTextNode)`: encode a text leaf
into a structure-relative address.  Fails (`none`, where the JS would throw)
if the leaf or its parent cannot be resolved in the tree. -/
def getSelectedTextNodePosition (root : Node) (selectedTextNode : Nat) : Option Pos :=
  match parentOf root selectedTextNode, findNode root selectedTextNode with
  | some parentElement, some leaf =>
    some { parentTagName := tagOf parentElement
         , parentIndex :=
             ((elementsByTag root (tagOf parentElement)).map idOf).indexOf (idOf parentElement)
         , textNodeOffset := getTextNodeOffset parentElement selectedTextNode
         , textNodeLength := (dataOf leaf).length }
  | _, _ => none

/-- Source `storeSelectedNodes(selectedTextNodes)`: map each given node (the
caller passes the first and last collected leaf, possibly absent) to its
address.  The stored value is the resulting list. -/
def storeSelectedNodes (root : Node) (selectedTextNodes : List (Option (Nat × Str))) :
    List (Option Pos) :=
  selectedTextNodes.map (fun o => o.bind (fun x => getSelectedTextNodePosition root x.1))

/-- Inline style set by `wrapHighlight` on the wrapper span. -/
def highlightStyle : List (String × String) := [("background-color", "yellow")]

/-- Model of `node.cloneNode(false)`: same content / same tag and attributes,
no children, fresh identity. -/
def cloneNodeShallow (n : Node) (cloneId : Nat) : Node :=
  match n with
  | .text _ c => .text cloneId c
  | .element _ t s _ => .element cloneId t s []

/-- The wrapper element built by `wrapHighlight`: a styled span holding a
shallow clone of the wrapped node. -/
def mkWrapper (wrapperId cloneId : Nat) (n : Node) : Node :=
  .element wrapperId "span" highlightStyle [cloneNodeShallow n cloneId]

mutual

/-- Source `wrapHighlight(node)` as a tree rewrite: the call
`node.parentNode.replaceChild(wrapper, node)` substitutes, in the child list
of the target's parent, the wrapper span for the node with id `targetId`. -/
def wrapHighlight (targetId wrapperId cloneId : Nat) : Node → Node
  | .text i c => .text i c
  | .element i t s cs => .element i t s (wrapHighlightChildren targetId wrapperId cloneId cs)

/-- Child-list part of `wrapHighlight`. -/
def wrapHighlightChildren (targetId wrapperId cloneId : Nat) : List Node → List Node
  | [] => []
  | n :: ns =>
    (if idOf n = targetId then mkWrapper wrapperId cloneId n
     else wrapHighlight targetId wrapperId cloneId n)
      :: wrapHighlightChildren targetId wrapperId cloneId ns

end

/-- Source `getNodesIfSameStartEnd(range)`: split the shared boundary leaf at
`startOffset`, take its new next sibling (fresh id `f1`), split that at
`endOffset - startOffset`, and return the single middle leaf. -/
def getNodesIfSameStartEnd (rootElement : Node) (startContainer : Node)
    (startOffset endOffset f1 f2 : Nat) : List (Nat × Str) × Node :=
  let dom1 := splitTextAt (idOf startContainer) startOffset f1 rootElement
  let selectedContent := (dataOf startContainer).drop startOffset
  let dom2 := splitTextAt f1 (endOffset - startOffset) f2 dom1
  ([(f1, selectedContent.take (endOffset - startOffset))], dom2)

/-- Stack loop of `getSelectedNodes`: depth-first traversal collecting, with
the `withinSelectedRange` flag, the text leaves between the start and end
containers; boundary text leaves are split in the document on the way. -/
def collectGo (sid eid : Option Nat) (startOffset endOffset f1 f2 : Nat) :
    List Node → Bool → Node → List (Nat × Str) × Node
  | [], _, dom => ([], dom)
  | n :: rest, withinSelectedRange, dom =>
    if some (idOf n) = sid then
      if isTextNode n then
        let res := collectGo sid eid startOffset endOffset f1 f2 (childrenOf n ++ rest) true
          (splitTextAt (idOf n) startOffset f1 dom)
        ((f1, (dataOf n).drop startOffset) :: res.1, res.2)
      else collectGo sid eid startOffset endOffset f1 f2 (childrenOf n ++ rest) true dom
    else if some (idOf n) = eid then
      if isTextNode n then
        ([(idOf n, (dataOf n).take endOffset)], splitTextAt (idOf n) endOffset f2 dom)
      else ([], dom)
    else if withinSelectedRange ∧ isTextNode n then
      let res := collectGo sid eid startOffset endOffset f1 f2 (childrenOf n ++ rest)
        withinSelectedRange dom
      ((idOf n, dataOf n) :: res.1, res.2)
    else collectGo sid eid startOffset endOffset f1 f2 (childrenOf n ++ rest)
      withinSelectedRange dom
termination_by s _ _ => sizeL s
decreasing_by all_goals exact sizeL_children_lt n rest

/-- A selection range: boundary containers (possibly undefined, as produced by
a failed restore) and offsets. -/
structure MRange where
  startContainer : Option Node
  startOffset : Nat
  endContainer : Option Node
  endOffset : Nat

/-- Host semantics of `selection.isCollapsed`: start and end positions
coincide (same container, same offset). -/
def MRange.isCollapsed (r : MRange) : Bool :=
  (Option.map idOf r.startContainer == Option.map idOf r.endContainer) &&
    (r.startOffset == r.endOffset)

/-- Check `startContainer === endContainer && startContainer instanceof Text`
of the source (an undefined container is never a Text instance). -/
def sameTextContainer (sC eC : Option Node) : Bool :=
  match sC, eC with
  | some s, some e => idOf s == idOf e && isTextNode s
  | _, _ => false

/-- Source `getSelectedNodes(rootElement, range)`: either the same-leaf special
case or the collecting depth-first traversal; returns the collected leaves
(fresh boundary pieces get ids `f1`, `f2`) and the mutated document. -/
def getSelectedNodes (rootElement : Node) (r : MRange) (f1 f2 : Nat) :
    List (Nat × Str) × Node :=
  if sameTextContainer r.startContainer r.endContainer then
    match r.startContainer with
    | some s => getNodesIfSameStartEnd rootElement s r.startOffset r.endOffset f1 f2
    | none => ([], rootElement)
  else
    collectGo (Option.map idOf r.startContainer) (Option.map idOf r.endContainer)
      r.startOffset r.endOffset f1 f2 [rootElement] false rootElement

/-- Stack loop of `restoreContainer`: depth-first search for the text leaf at
which the running text length first reaches the stored offset. -/
def restoreGo (textNodeOffset : Nat) : List Node → Nat → Nat → Option Node × Nat
  | [], _, finalOffset => (none, finalOffset)
  | n :: rest, currentOffset, finalOffset =>
    if isTextNode n then
      if textNodeOffset ≤ currentOffset + (dataOf n).length then
        (some n, textNodeOffset - currentOffset)
      else
        restoreGo textNodeOffset (childrenOf n ++ rest)
          (currentOffset + (dataOf n).length) (textNodeOffset - currentOffset)
    else restoreGo textNodeOffset (childrenOf n ++ rest) currentOffset finalOffset
termination_by s _ _ => sizeL s
decreasing_by all_goals exact sizeL_children_lt n rest

/-- Source `restoreContainer(nodeInfo)`: decode an address back to a (node,
intra-node offset) pair.  When the indexed tag lookup misses, the JS walks an
`undefined` stack entry and returns `{node: undefined, offset: 0}` without
throwing, modelled as `(none, 0)`; when the walk exhausts without reaching the
offset it falls back to the parent element itself. -/
def restoreContainer (root : Node) (nodeInfo : Pos) : Option Node × Nat :=
  match (elementsByTag root nodeInfo.parentTagName)[nodeInfo.parentIndex]? with
  | none => (none, 0)
  | some parentElement =>
    match restoreGo nodeInfo.textNodeOffset [parentElement] 0 0 with
    | (some n, fin) => (some n, fin)
    | (none, fin) => (some parentElement, fin)

/-- Source `restoreSelectedNodes()` on a stored address pair: decode both
addresses and rebuild a range whose end offset adds the stored length. -/
def restoreSelectedNodes (root : Node) (startSelectedNode endSelectNode : Pos) : MRange :=
  let s := restoreContainer root startSelectedNode
  let e := restoreContainer root endSelectNode
  { startContainer := s.1, startOffset := s.2
  , endContainer := e.1, endOffset := e.2 + endSelectNode.textNodeLength }

/-- Decode composed with encode, the round trip of claim C2. -/
def decodeEncode (root : Node) (leafId : Nat) : Option (Option Node × Nat) :=
  (getSelectedTextNodePosition root leafId).map (restoreContainer root)

/-- The `selectedNodes.forEach(node => wrapHighlight(node))` loop; wrapper and
clone ids are drawn from `wbase`. -/
def wrapAll (root : Node) (ns : List (Nat × Str)) (wbase : Nat) : Node :=
  match ns with
  | [] => root
  | x :: rest => wrapAll (wrapHighlight x.1 wbase (wbase + 1) root) rest (wbase + 2)

/-- The `mouseup` capture handler of `selection()`: when the live selection is
not collapsed, collect the selected leaves, store the addresses of the first
and last, and wrap every collected leaf; otherwise do nothing.  Returns the
updated document and the updated stored slot. -/
def capture (root : Node) (store : Option (List (Option Pos))) (sel : MRange)
    (f1 f2 wbase : Nat) : Node × Option (List (Option Pos)) :=
  if sel.isCollapsed = false then
    let res := getSelectedNodes root sel f1 f2
    let stored := storeSelectedNodes res.2 [res.1.head?, res.1.getLast?]
    (wrapAll res.2 res.1 wbase, some stored)
  else (root, store)

/-- Body of the restore branch once both addresses are at hand: decode them
into a range, collect the leaves, wrap each one.  Returns the updated
document and the list of wrapped leaves. -/
def restoreCore (root : Node) (startSelectedNode endSelectNode : Pos) (f1 f2 wbase : Nat) :
    Node × List (Nat × Str) :=
  let r := restoreSelectedNodes root startSelectedNode endSelectNode
  let res := getSelectedNodes root r f1 f2
  (wrapAll res.2 res.1 wbase, res.1)

/-- The restore-on-load branch of `selection()`: when a selection is stored,
decode it, collect and wrap; `none` models the paths on which the JS throws
(a stored value without two addresses). -/
def restoreFlow (root : Node) (store : Option (List (Option Pos))) (f1 f2 wbase : Nat) :
    Option (Node × List (Nat × Str)) :=
  match store with
  | none => some (root, [])
  | some stored =>
    match stored[0]?, stored[1]? with
    | some (some startSelectedNode), some (some endSelectNode) =>
      some (restoreCore root startSelectedNode endSelectNode f1 f2 wbase)
    | _, _ => none

/-! ### Pre-order decomposition and structural twins of the stack loops

The stack loops visit nodes exactly in document pre-order.  Each loop gets a
structurally recursive twin over the pre-order node list, with an equivalence
lemma; the twins both drive the decomposition proofs and make concrete
evaluation possible. -/

lemma preorderL_append (a b : List Node) : preorderL (a ++ b) = preorderL a ++ preorderL b := by
  induction a with
  | nil => simp [preorderL]
  | cons n ns ih => simp [preorderL, ih]

lemma preorderL_singleton (n : Node) : preorderL [n] = preorder n := by
  simp [preorderL]

/-- Central stepping lemma: popping a node and pushing its children preserves
the pre-order of the remaining stack. -/
lemma preorderL_cons_eq (n : Node) (rest : List Node) :
    preorderL (n :: rest) = n :: preorderL (childrenOf n ++ rest) := by
  cases n <;> simp [preorderL, preorder, childrenOf, preorderL_append]

lemma leavesL_append (a b : List Node) : leavesL (a ++ b) = leavesL a ++ leavesL b := by
  simp [leavesL, preorderL_append, List.filterMap_append]

lemma leavesL_cons_text (i : Nat) (c : Str) (rest : List Node) :
    leavesL (Node.text i c :: rest) = (i, c) :: leavesL rest := by
  simp [leavesL, preorderL, preorder, textOf]

lemma leavesL_cons_element (i : Nat) (t : String) (s : List (String × String))
    (cs rest : List Node) :
    leavesL (Node.element i t s cs :: rest) = leavesL (cs ++ rest) := by
  simp [leavesL, preorderL, preorder, textOf, preorderL_append]

/-- Structural twin of `offsetGo` over the list of text leaves. -/
def offsetList (target : Nat) : List (Nat × Str) → Nat → Nat
  | [], offset => offset
  | (i, c) :: ls, offset =>
    if i ≠ target then offsetList target ls (offset + c.length) else offset

lemma offsetGo_eq_list (target : Nat) (s : List Node) (offset : Nat) :
    offsetGo target s offset = offsetList target (leavesL s) offset := by
  induction s, offset using offsetGo.induct target with
  | case1 offset => simp [offsetGo, leavesL, preorderL, offsetList]
  | case2 n rest offset h ih =>
    cases n with
    | text i c =>
      have hne : i ≠ target := by simpa [isTextNode, idOf] using h
      rw [offsetGo, if_pos h, ih]
      simp [leavesL, leavesL_cons_text, offsetList, childrenOf, dataOf, hne]
    | element i t st cs => simp [isTextNode] at h
  | case3 n rest offset h1 h2 =>
    cases n with
    | text i c =>
      have heq : i = target := by
        by_contra hc
        exact h1 (by simp [isTextNode, idOf, hc])
      subst heq
      rw [offsetGo, if_neg h1, if_pos h2]
      simp [leavesL_cons_text, offsetList]
    | element _ _ _ _ => simp [isTextNode] at h2
  | case4 n rest offset h1 h2 ih =>
    cases n with
    | text i c => exact absurd (by simp [isTextNode]) h2
    | element i t st cs =>
      rw [offsetGo, if_neg h1, if_neg h2, ih]
      simp [leavesL_cons_element, childrenOf]

/-- Offset calculation reduced to the leaf list of the parent. -/
lemma getTextNodeOffset_eq (parentElement : Node) (target : Nat) :
    getTextNodeOffset parentElement target = offsetList target (textLeaves parentElement) 0 := by
  rw [getTextNodeOffset, offsetGo_eq_list]
  simp [leavesL, preorderL_singleton, textLeaves]

/-- Structural twin of `restoreGo` over the list of text leaves. -/
def restoreList (textNodeOffset : Nat) : List (Nat × Str) → Nat → Nat → Option (Nat × Str) × Nat
  | [], _, finalOffset => (none, finalOffset)
  | (i, c) :: ls, currentOffset, finalOffset =>
    if textNodeOffset ≤ currentOffset + c.length then
      (some (i, c), textNodeOffset - currentOffset)
    else
      restoreList textNodeOffset ls (currentOffset + c.length) (textNodeOffset - currentOffset)

/-- Reattach the `Node` constructor to the leaf found by `restoreList`. -/
def liftLeaf (r : Option (Nat × Str) × Nat) : Option Node × Nat :=
  (r.1.map (fun x => Node.text x.1 x.2), r.2)

lemma restoreGo_eq_list (textNodeOffset : Nat) (s : List Node) (cur fin : Nat) :
    restoreGo textNodeOffset s cur fin
      = liftLeaf (restoreList textNodeOffset (leavesL s) cur fin) := by
  induction s, cur, fin using restoreGo.induct textNodeOffset with
  | case1 cur fin => simp [restoreGo, leavesL, preorderL, restoreList, liftLeaf]
  | case2 n rest cur fin h1 h2 =>
    cases n with
    | text i c =>
      rw [restoreGo, if_pos h1, if_pos (by simpa [dataOf] using h2)]
      simp only [dataOf] at h2
      simp [leavesL_cons_text, restoreList, liftLeaf, dataOf, h2]
    | element _ _ _ _ => simp [isTextNode] at h1
  | case3 n rest cur fin h1 h2 ih =>
    cases n with
    | text i c =>
      rw [restoreGo, if_pos h1, if_neg h2, ih]
      simp only [dataOf] at h2
      simp [leavesL, leavesL_cons_text, restoreList, liftLeaf, dataOf, h2, childrenOf]
    | element _ _ _ _ => simp [isTextNode] at h1
  | case4 n rest cur fin h1 ih =>
    cases n with
    | text i c => exact absurd (by simp [isTextNode]) h1
    | element i t st cs =>
      rw [restoreGo, if_neg h1, ih]
      simp [leavesL_cons_element, childrenOf]

/-- Structural twin of the collecting part of `collectGo`. -/
def collectList (sid eid : Option Nat) (startOffset endOffset f1 : Nat) :
    List Node → Bool → List (Nat × Str)
  | [], _ => []
  | n :: ns, withinSelectedRange =>
    if some (idOf n) = sid then
      (if isTextNode n then [(f1, (dataOf n).drop startOffset)] else []) ++
        collectList sid eid startOffset endOffset f1 ns true
    else if some (idOf n) = eid then
      if isTextNode n then [(idOf n, (dataOf n).take endOffset)] else []
    else if withinSelectedRange ∧ isTextNode n then
      (idOf n, dataOf n) :: collectList sid eid startOffset endOffset f1 ns withinSelectedRange
    else collectList sid eid startOffset endOffset f1 ns withinSelectedRange

/-- Structural twin of the document-mutating part of `collectGo`. -/
def collectDomList (sid eid : Option Nat) (startOffset endOffset f1 f2 : Nat) :
    List Node → Node → Node
  | [], dom => dom
  | n :: ns, dom =>
    if some (idOf n) = sid then
      collectDomList sid eid startOffset endOffset f1 f2 ns
        (if isTextNode n then splitTextAt (idOf n) startOffset f1 dom else dom)
    else if some (idOf n) = eid then
      if isTextNode n then splitTextAt (idOf n) endOffset f2 dom else dom
    else collectDomList sid eid startOffset endOffset f1 f2 ns dom

lemma collectGo_eq_list (sid eid : Option Nat) (so eo f1 f2 : Nat) (s : List Node)
    (w : Bool) (dom : Node) :
    collectGo sid eid so eo f1 f2 s w dom
      = (collectList sid eid so eo f1 (preorderL s) w,
         collectDomList sid eid so eo f1 f2 (preorderL s) dom) := by
  induction s, w, dom using collectGo.induct sid eid so eo f1 f2 with
  | case1 w dom => simp [collectGo, preorderL, collectList, collectDomList]
  | case2 n rest w dom h1 h2 ih =>
    rw [collectGo, if_pos h1, if_pos h2, preorderL_cons_eq]
    rw [collectList, collectDomList, if_pos h1, if_pos h2, ih]
    simp [h1, h2]
  | case3 n rest w dom h1 h2 ih =>
    rw [collectGo, if_pos h1, if_neg h2, preorderL_cons_eq]
    rw [collectList, collectDomList, if_pos h1, ih]
    simp [h1, h2]
  | case4 n rest w dom h1 h2 h3 =>
    rw [collectGo, if_neg h1, if_pos h2, if_pos h3, preorderL_cons_eq]
    rw [collectList, collectDomList, if_neg h1, if_neg h1, if_pos h2, if_pos h2, if_pos h3,
      if_pos h3]
  | case5 n rest w dom h1 h2 h3 =>
    rw [collectGo, if_neg h1, if_pos h2, if_neg h3, preorderL_cons_eq]
    rw [collectList, collectDomList, if_neg h1, if_neg h1, if_pos h2, if_pos h2, if_neg h3,
      if_neg h3]
  | case6 n rest w dom h1 h2 h3 ih =>
    rw [collectGo, if_neg h1, if_neg h2, if_pos h3, preorderL_cons_eq]
    rw [collectList, collectDomList, if_neg h1, if_neg h1, if_neg h2, if_neg h2, if_pos h3, ih]
  | case7 n rest w dom h1 h2 h3 ih =>
    rw [collectGo, if_neg h1, if_neg h2, if_neg h3, preorderL_cons_eq]
    rw [collectList, collectDomList, if_neg h1, if_neg h1, if_neg h2, if_neg h2, if_neg h3, ih]

/-! ### Arithmetic and list helpers -/

lemma sumLens_nil : sumLens [] = 0 := rfl

lemma sumLens_cons (x : Nat × Str) (ls : List (Nat × Str)) :
    sumLens (x :: ls) = x.2.length + sumLens ls := by
  simp [sumLens]

lemma sumLens_append (a b : List (Nat × Str)) : sumLens (a ++ b) = sumLens a + sumLens b := by
  simp [sumLens]

lemma flatten_snd_length (ls : List (Nat × Str)) :
    ((ls.map (fun x => x.2)).flatten).length = sumLens ls := by
  induction ls with
  | nil => simp [sumLens]
  | cons x xs ih => simp [sumLens_cons, ih]

lemma drop_len_add {α : Type} (a b : List α) (n : Nat) :
    (a ++ b).drop (a.length + n) = b.drop n := by
  induction a with
  | nil => simp
  | cons x xs ih => simpa [Nat.succ_add] using ih

lemma drop_append_le {α : Type} (a b : List α) (n : Nat) (h : n ≤ a.length) :
    (a ++ b).drop n = a.drop n ++ b := by
  induction a generalizing n with
  | nil => simp at h; simp [h]
  | cons x xs ih =>
    cases n with
    | zero => simp
    | succ m => simpa using ih m (by simpa using h)

lemma take_len_add {α : Type} (a b : List α) (n : Nat) :
    (a ++ b).take (a.length + n) = a ++ b.take n := by
  induction a with
  | nil => simp
  | cons x xs ih => simpa [Nat.succ_add] using ih

lemma take_append_le {α : Type} (a b : List α) (n : Nat) (h : n ≤ a.length) :
    (a ++ b).take n = a.take n := by
  induction a generalizing n with
  | nil => simp at h; simp [h]
  | cons x xs ih =>
    cases n with
    | zero => simp
    | succ m => simpa using ih m (by simpa using h)

lemma leavesL_cons (n : Node) (ns : List Node) :
    leavesL (n :: ns) = textLeaves n ++ leavesL ns := by
  simp [leavesL, textLeaves, preorderL, List.filterMap_append]

lemma textLeaves_element (i : Nat) (t : String) (s : List (String × String)) (cs : List Node) :
    textLeaves (Node.element i t s cs) = leavesL cs := by
  simp [textLeaves, preorder, textOf, leavesL]

lemma textLeaves_text (i : Nat) (c : Str) : textLeaves (Node.text i c) = [(i, c)] := by
  simp [textLeaves, preorder, textOf]

/-- Skipping a block of nodes none of which carries the searched id
accumulates exactly the text length of that block. -/
lemma textBeforeL_append (nid : Nat) (rest : List Node) :
    ∀ A : List Node, nid ∉ A.map idOf →
      textBeforeL nid (A ++ rest) = sumLens (A.filterMap textOf) + textBeforeL nid rest := by
  intro A
  induction A with
  | nil => intro _; simp [sumLens]
  | cons n A2 ih =>
    intro h
    simp only [List.map_cons, List.mem_cons] at h
    push_neg at h
    have hne : idOf n ≠ nid := Ne.symm h.1
    cases n with
    | text i c =>
      rw [List.cons_append, textBeforeL, if_neg hne, ih h.2]
      simp only [List.filterMap_cons, textOf, dataOf, sumLens_cons]
      omega
    | element i t s cs =>
      rw [List.cons_append, textBeforeL, if_neg hne, ih h.2]
      simp [List.filterMap_cons, textOf, dataOf]

/-- The accumulation stops with zero at the searched node itself. -/
lemma textBeforeL_self (nid : Nat) (n : Node) (rest : List Node) (h : idOf n = nid) :
    textBeforeL nid (n :: rest) = 0 := by
  rw [textBeforeL, if_pos h]

/-- Every node is at least one unit of size. -/
lemma sizeN_pos (n : Node) : 1 ≤ sizeN n := by
  cases n <;> simp [sizeN]

lemma sizeN_le_of_mem (c : Node) (cs : List Node) (h : c ∈ cs) : sizeN c ≤ sizeL cs := by
  induction cs with
  | nil => simp at h
  | cons x xs ih =>
    rcases List.mem_cons.mp h with rfl | hx
    · simp [sizeL]
    · have := ih hx
      simp [sizeL]
      omega

lemma mem_preorderL_iff (m : Node) (ns : List Node) :
    m ∈ preorderL ns ↔ ∃ c ∈ ns, m ∈ preorder c := by
  induction ns with
  | nil => simp [preorderL]
  | cons n rest ih => simp [preorderL, List.mem_append, ih]

/-- The node itself heads its own pre-order. -/
lemma self_mem_preorder (n : Node) : n ∈ preorder n := by
  cases n <;> simp [preorder]

/-- Pre-order membership is transitive: a node of a subtree is a node of the
whole tree. -/
lemma mem_preorder_trans (k : Nat) :
    ∀ root m n, sizeN root ≤ k → n ∈ preorder root → m ∈ preorder n → m ∈ preorder root := by
  induction k with
  | zero =>
    intro root m n h0
    have := sizeN_pos root
    omega
  | succ k ih =>
    intro root m n hk hn hm
    cases root with
    | text i c =>
      simp [preorder] at hn
      subst hn
      exact hm
    | element i t s cs =>
      simp only [preorder, List.mem_cons] at hn
      rcases hn with rfl | hn
      · exact hm
      · rcases (mem_preorderL_iff n cs).mp hn with ⟨c, hc, hnc⟩
        have hsz : sizeN c ≤ k := by
          have h1 := sizeN_le_of_mem c cs hc
          simp [sizeN] at hk
          omega
        have : m ∈ preorder c := ih c m n hsz hnc hm
        simp only [preorder, List.mem_cons]
        exact Or.inr ((mem_preorderL_iff m cs).mpr ⟨c, hc, this⟩)

/-- With pairwise distinct ids, searching a list for the id of a member finds
exactly that member. -/
lemma find?_by_id (l : List Node) (n : Node) (hnd : (l.map idOf).Nodup) (hmem : n ∈ l) :
    l.find? (fun m => idOf m == idOf n) = some n := by
  induction l with
  | nil => simp at hmem
  | cons h t ih =>
    rw [List.map_cons] at hnd
    obtain ⟨hh, ht'⟩ := List.nodup_cons.mp hnd
    by_cases hid : idOf h = idOf n
    · have : h = n := by
        rcases List.mem_cons.mp hmem with rfl | ht
        · rfl
        · exact absurd (hid ▸ List.mem_map_of_mem idOf ht) hh
      subst this
      simp [List.find?]
    · have hnt : n ∈ t := by
        rcases List.mem_cons.mp hmem with rfl | ht
        · exact absurd rfl hid
        · exact ht
      have hne : (idOf h == idOf n) = false := by simp [hid]
      simp only [List.find?, hne]
      exact ih ht' hnt

/-- With pairwise distinct ids, indexing a list at the index of a member's id
returns that member. -/
lemma getElem?_indexOf_id (l : List Node) (p : Node) (hnd : (l.map idOf).Nodup)
    (hmem : p ∈ l) :
    l[(l.map idOf).indexOf (idOf p)]? = some p := by
  induction l with
  | nil => simp at hmem
  | cons h t ih =>
    rw [List.map_cons] at hnd
    obtain ⟨hh, ht'⟩ := List.nodup_cons.mp hnd
    by_cases hid : idOf h = idOf p
    · have : h = p := by
        rcases List.mem_cons.mp hmem with rfl | ht
        · rfl
        · exact absurd (hid ▸ List.mem_map_of_mem idOf ht) hh
      subst this
      simp [List.indexOf_cons, hid]
    · have hnt : p ∈ t := by
        rcases List.mem_cons.mp hmem with rfl | ht
        · exact absurd rfl hid
        · exact ht
      have hne : (idOf h == idOf p) = false := by simp [hid]
      simp only [List.map_cons, List.indexOf_cons, hne, cond_false]
      rw [List.getElem?_cons_succ]
      exact ih ht' hnt

/-! ### Behaviour of the offset calculator on leaf lists -/

lemma offsetList_not_mem (target : Nat) :
    ∀ (ls : List (Nat × Str)) (offset : Nat), target ∉ ls.map Prod.fst →
      offsetList target ls offset = offset + sumLens ls := by
  intro ls
  induction ls with
  | nil => intro offset h; simp [offsetList, sumLens]
  | cons x xs ih =>
    intro offset h
    obtain ⟨i, c⟩ := x
    simp only [List.map_cons, List.mem_cons] at h
    push_neg at h
    rw [offsetList, if_pos (Ne.symm h.1), ih (offset + c.length) h.2, sumLens_cons]
    simp [Nat.add_assoc]

lemma offsetList_found (target : Nat) (c : Str) (Q : List (Nat × Str)) :
    ∀ (P : List (Nat × Str)) (offset : Nat), target ∉ P.map Prod.fst →
      offsetList target (P ++ (target, c) :: Q) offset = offset + sumLens P := by
  intro P
  induction P with
  | nil =>
    intro offset h
    simp [offsetList, sumLens]
  | cons x xs ih =>
    intro offset h
    obtain ⟨i, d⟩ := x
    simp only [List.map_cons, List.mem_cons] at h
    push_neg at h
    rw [List.cons_append, offsetList, if_pos (Ne.symm h.1), ih (offset + d.length) h.2,
      sumLens_cons]
    simp [Nat.add_assoc]

/-! ### Behaviour of the restore walk on leaf lists -/

/-- The walk stops exactly at the first leaf at which the running total
reaches the stored offset, returning that leaf and the remaining offset. -/
lemma restoreList_stop (off : Nat) (m : Nat × Str) (rest : List (Nat × Str)) :
    ∀ (P : List (Nat × Str)) (cum fin : Nat),
      (∀ k, k < P.length → cum + sumLens (P.take (k + 1)) < off) →
      off ≤ cum + sumLens P + m.2.length →
      restoreList off (P ++ m :: rest) cum fin = (some m, off - (cum + sumLens P)) := by
  intro P
  induction P with
  | nil =>
    intro cum fin _ hstop
    obtain ⟨i, c⟩ := m
    rw [List.nil_append, restoreList, if_pos (by simpa [sumLens] using hstop)]
    simp [sumLens]
  | cons p P2 ih =>
    intro cum fin hcum hstop
    obtain ⟨i, c⟩ := p
    have h0 : cum + c.length < off := by
      have := hcum 0 (by simp)
      simpa [sumLens_cons, sumLens] using this
    rw [List.cons_append, restoreList, if_neg (by omega)]
    rw [ih (cum + c.length) (off - cum)
      (by
        intro k hk
        have := hcum (k + 1) (by simpa using Nat.succ_lt_succ hk)
        simpa [List.take_succ_cons, sumLens_cons, Nat.add_assoc] using this)
      (by simp only [sumLens_cons] at hstop; omega)]
    simp only [sumLens_cons]
    congr 1
    omega

/-- Whatever leaf the walk returns sits in the list, with the returned offset
relating it to the stored offset. -/
lemma restoreList_sound (off : Nat) :
    ∀ (ls : List (Nat × Str)) (cum fin : Nat) (m : Nat × Str) (f : Nat),
      cum ≤ off →
      restoreList off ls cum fin = (some m, f) →
      ∃ P Q, ls = P ++ m :: Q ∧ f = off - (cum + sumLens P) ∧
        cum + sumLens P ≤ off ∧ off ≤ cum + sumLens P + m.2.length := by
  intro ls
  induction ls with
  | nil =>
    intro cum fin m f _ h
    simp [restoreList] at h
  | cons x xs ih =>
    intro cum fin m f hc h
    obtain ⟨i, c⟩ := x
    by_cases hle : off ≤ cum + c.length
    · rw [restoreList, if_pos hle] at h
      obtain ⟨h1, h2⟩ := Prod.mk.injEq .. ▸ h
      cases h1
      exact ⟨[], xs, by simpa using h, by simpa [sumLens] using h2.symm,
        by simpa [sumLens] using hc, by simpa [sumLens] using hle⟩
    · rw [restoreList, if_neg hle] at h
      obtain ⟨P, Q, hPQ, hf, hle2, hge⟩ :=
        ih (cum + c.length) (off - cum) m f (by omega) h
      exact ⟨(i, c) :: P, Q, by simp [hPQ], by simpa [sumLens_cons, Nat.add_assoc] using hf,
        by simpa [sumLens_cons, Nat.add_assoc] using hle2,
        by simpa [sumLens_cons, Nat.add_assoc] using hge⟩

/-- On a non-empty leaf list whose total length reaches the stored offset the
walk always finds a leaf. -/
lemma restoreList_finds (off : Nat) :
    ∀ (ls : List (Nat × Str)) (cum fin : Nat), ls ≠ [] → off ≤ cum + sumLens ls →
      ∃ m f, restoreList off ls cum fin = (some m, f) := by
  intro ls
  induction ls with
  | nil => intro cum fin h; exact absurd rfl h
  | cons x xs ih =>
    intro cum fin _ hle
    obtain ⟨i, c⟩ := x
    by_cases h : off ≤ cum + c.length
    · exact ⟨(i, c), off - cum, by rw [restoreList, if_pos h]⟩
    · have hxs : xs ≠ [] := by
        rintro rfl
        simp [sumLens_cons, sumLens] at hle
        omega
      obtain ⟨m, f, hm⟩ := ih (cum + c.length) (off - cum) hxs
        (by simp only [sumLens_cons] at hle; omega)
      exact ⟨m, f, by rw [restoreList, if_neg h]; exact hm⟩

/-! ### Behaviour of the collector on pre-order node lists -/

/-- Before the start container is seen, nothing is collected. -/
lemma collectList_skip (sid eid : Option Nat) (so eo f1 : Nat) (tail : List Node) :
    ∀ ns : List Node,
      (∀ n ∈ ns, some (idOf n) ≠ sid) → (∀ n ∈ ns, some (idOf n) ≠ eid) →
      collectList sid eid so eo f1 (ns ++ tail) false = collectList sid eid so eo f1 tail false := by
  intro ns
  induction ns with
  | nil => intro _ _; simp
  | cons n rest ih =>
    intro hs he
    rw [List.cons_append, collectList, if_neg (hs n (by simp)), if_neg (he n (by simp)),
      if_neg (by simp)]
    exact ih (fun m hm => hs m (by simp [hm])) (fun m hm => he m (by simp [hm]))

/-- Between the two containers every text leaf is collected, in order. -/
lemma collectList_within (sid eid : Option Nat) (so eo f1 : Nat) (tail : List Node) :
    ∀ ns : List Node,
      (∀ n ∈ ns, some (idOf n) ≠ sid) → (∀ n ∈ ns, some (idOf n) ≠ eid) →
      collectList sid eid so eo f1 (ns ++ tail) true
        = ns.filterMap textOf ++ collectList sid eid so eo f1 tail true := by
  intro ns
  induction ns with
  | nil => intro _ _; simp
  | cons n rest ih =>
    intro hs he
    rw [List.cons_append, collectList, if_neg (hs n (by simp)), if_neg (he n (by simp))]
    have ihr := ih (fun m hm => hs m (by simp [hm])) (fun m hm => he m (by simp [hm]))
    cases n with
    | text i c =>
      rw [if_pos (by simp [isTextNode])]
      simp [textOf, idOf, dataOf, ihr]
    | element i t s cs =>
      rw [if_neg (by simp [isTextNode])]
      simp [textOf, ihr]

/-! ### Behaviour of the highlight applier -/

lemma wrapHighlightChildren_append (tid wid cid : Nat) (a b : List Node) :
    wrapHighlightChildren tid wid cid (a ++ b)
      = wrapHighlightChildren tid wid cid a ++ wrapHighlightChildren tid wid cid b := by
  induction a with
  | nil => simp [wrapHighlightChildren]
  | cons n ns ih => simp [wrapHighlightChildren, ih]

/-- A forest that does not contain the target id anywhere is left unchanged. -/
lemma wrapHighlightChildren_skip (tid wid cid : Nat) :
    ∀ (k : Nat) (ns : List Node), sizeL ns ≤ k → tid ∉ (preorderL ns).map idOf →
      wrapHighlightChildren tid wid cid ns = ns := by
  intro k
  induction k with
  | zero =>
    intro ns hk h
    cases ns with
    | nil => rfl
    | cons n rest =>
      exfalso
      have := sizeN_pos n
      simp [sizeL] at hk
      omega
  | succ k ih =>
    intro ns hk h
    cases ns with
    | nil => rfl
    | cons n rest =>
      rw [preorderL_cons_eq, preorderL_append] at h
      simp only [List.map_cons, List.map_append, List.mem_cons, List.mem_append] at h
      push_neg at h
      obtain ⟨hid, hcs, hrest⟩ := h
      rw [wrapHighlightChildren, if_neg (Ne.symm hid)]
      congr 1
      · cases n with
        | text i c => rw [wrapHighlight]
        | element i t s cs =>
          rw [wrapHighlight]
          congr 1
          refine ih cs ?_ (by simpa [childrenOf] using hcs)
          simp only [sizeL, sizeN] at hk
          omega
      · refine ih rest ?_ hrest
        have := sizeN_pos n
        simp only [sizeL] at hk
        omega

/-- Helper shared by the frame-effect claims: wrapping a leaf that sits at a
known index of its parent rewrites exactly that child. -/
lemma wrapHighlight_at_parent (pid : Nat) (tg : String) (st : List (String × String))
    (pre post : List Node) (lid wid cid : Nat) (c : Str)
    (hpre : lid ∉ (preorderL pre).map idOf) (hpost : lid ∉ (preorderL post).map idOf) :
    wrapHighlight lid wid cid (Node.element pid tg st (pre ++ Node.text lid c :: post))
      = Node.element pid tg st
          (pre ++ Node.element wid "span" highlightStyle [Node.text cid c] :: post) := by
  rw [wrapHighlight]
  congr 1
  rw [wrapHighlightChildren_append,
    wrapHighlightChildren_skip lid wid cid (sizeL pre) pre le_rfl hpre]
  congr 1
  rw [wrapHighlightChildren, if_pos (by simp [idOf]),
    wrapHighlightChildren_skip lid wid cid (sizeL post) post le_rfl hpost]
  simp [mkWrapper, cloneNodeShallow]

lemma forestText_append (a b : List Node) : forestText (a ++ b) = forestText a ++ forestText b := by
  simp [forestText, leavesL_append]

lemma forestText_cons (n : Node) (ns : List Node) :
    forestText (n :: ns) = fullText n ++ forestText ns := by
  simp [forestText, fullText, leavesL_cons]

lemma fullText_element (i : Nat) (t : String) (s : List (String × String)) (cs : List Node) :
    fullText (Node.element i t s cs) = forestText cs := by
  simp [fullText, textLeaves_element, forestText]

lemma fullText_text (i : Nat) (c : Str) : fullText (Node.text i c) = c := by
  simp [fullText, textLeaves_text]

lemma forestText_nil : forestText [] = [] := by
  simp [forestText, leavesL, preorderL]

/-- C8: for every text leaf with a parent, the highlight applier
`wrapHighlight` creates a new element carrying the highlight style, places a
non-deep copy of the leaf inside it, and substitutes the wrapper for the leaf
at the same index in the parent's child sequence; all sibling nodes and their
order are unchanged. -/
theorem C8_wrap_replaces_leaf_in_place (pid : Nat) (tg : String)
    (st : List (String × String)) (pre post : List Node) (lid wid cid : Nat) (c : Str)
    (hpre : lid ∉ (preorderL pre).map idOf) (hpost : lid ∉ (preorderL post).map idOf) :
    wrapHighlight lid wid cid (Node.element pid tg st (pre ++ Node.text lid c :: post))
      = Node.element pid tg st
          (pre ++ Node.element wid "span" highlightStyle [Node.text cid c] :: post) :=
  wrapHighlight_at_parent pid tg st pre post lid wid cid c hpre hpost

/-- Witness for C8 at a concrete parent with siblings on both sides. -/
theorem C8_wrap_replaces_leaf_in_place_witness :
    wrapHighlight 1 100 101
        (Node.element 0 "p" []
          [Node.text 7 ['x'], Node.text 1 ['a', 'b'], Node.element 8 "q" [] []])
      = Node.element 0 "p" []
          [Node.text 7 ['x'],
           Node.element 100 "span" highlightStyle [Node.text 101 ['a', 'b']],
           Node.element 8 "q" [] []] :=
  C8_wrap_replaces_leaf_in_place 0 "p" [] [Node.text 7 ['x']] [Node.element 8 "q" [] []]
    1 100 101 ['a', 'b'] (by decide) (by decide)

/-- C10: for every text leaf with a parent element, applying `wrapHighlight`
leaves the parent's number of children and the parent's concatenated text
content unchanged: the wrapper occupies the leaf's former index and the
shallow clone carries the leaf's full string content. -/
theorem C10_wrap_preserves_child_count_and_text (pid : Nat) (tg : String)
    (st : List (String × String)) (pre post : List Node) (lid wid cid : Nat) (c : Str)
    (hpre : lid ∉ (preorderL pre).map idOf) (hpost : lid ∉ (preorderL post).map idOf) :
    (childrenOf (wrapHighlight lid wid cid
        (Node.element pid tg st (pre ++ Node.text lid c :: post)))).length
      = (childrenOf (Node.element pid tg st (pre ++ Node.text lid c :: post))).length ∧
    fullText (wrapHighlight lid wid cid
        (Node.element pid tg st (pre ++ Node.text lid c :: post)))
      = fullText (Node.element pid tg st (pre ++ Node.text lid c :: post)) := by
  rw [wrapHighlight_at_parent pid tg st pre post lid wid cid c hpre hpost]
  constructor
  · simp [childrenOf]
  · simp [fullText_element, forestText_append, forestText_cons, fullText_text, forestText_nil]

/-- Witness for C10 at a concrete parent with siblings on both sides. -/
theorem C10_wrap_preserves_child_count_and_text_witness :
    (childrenOf (wrapHighlight 1 100 101
        (Node.element 0 "p" []
          [Node.text 7 ['x'], Node.text 1 ['a', 'b'], Node.element 8 "q" [] []]))).length
      = (childrenOf (Node.element 0 "p" []
          [Node.text 7 ['x'], Node.text 1 ['a', 'b'], Node.element 8 "q" [] []])).length ∧
    fullText (wrapHighlight 1 100 101
        (Node.element 0 "p" []
          [Node.text 7 ['x'], Node.text 1 ['a', 'b'], Node.element 8 "q" [] []]))
      = fullText (Node.element 0 "p" []
          [Node.text 7 ['x'], Node.text 1 ['a', 'b'], Node.element 8 "q" [] []]) :=
  C10_wrap_preserves_child_count_and_text 0 "p" [] [Node.text 7 ['x']]
    [Node.element 8 "q" [] []] 1 100 101 ['a', 'b'] (by decide) (by decide)

lemma leavesL_singleton (n : Node) : leavesL [n] = textLeaves n := by
  simp [leavesL, preorderL_singleton, textLeaves]

lemma sumLens_take_le (m : Nat) (ls : List (Nat × Str)) : sumLens (ls.take m) ≤ sumLens ls := by
  induction ls generalizing m with
  | nil => simp
  | cons x xs ih =>
    cases m with
    | zero => simp [sumLens]
    | succ k =>
      rw [List.take_succ_cons, sumLens_cons, sumLens_cons]
      exact Nat.add_le_add_left (ih k) _

/-- C6: for every stored address pair that restore reads back, the rebuilt
selection range's end offset equals the end address's decoded intra-leaf
offset plus the stored end address's `textNodeLength`, while the start offset
is the start address's decoded intra-leaf offset unchanged. -/
theorem C6_restore_offsets (root : Node) (a b : Pos) :
    (restoreSelectedNodes root a b).startOffset = (restoreContainer root a).2 ∧
    (restoreSelectedNodes root a b).endOffset
      = (restoreContainer root b).2 + b.textNodeLength := by
  constructor <;> rfl

/-- C7: for every interaction event whose live selection is collapsed (start
position equals end position), the capture pass is a no-op: the persisted
selection slot is not written and no node in the document is wrapped or
otherwise mutated. -/
theorem C7_collapsed_capture_noop (root : Node) (store : Option (List (Option Pos)))
    (sel : MRange) (f1 f2 wbase : Nat) (h : sel.isCollapsed = true) :
    capture root store sel f1 f2 wbase = (root, store) := by
  rw [capture, if_neg (by simp [h])]

/-- Witness for C7: a concrete collapsed selection changes neither the
document nor the store. -/
theorem C7_collapsed_capture_noop_witness :
    capture (Node.element 0 "p" [] [Node.text 1 ['h', 'i']]) none
      { startContainer := some (Node.text 1 ['h', 'i']), startOffset := 1
      , endContainer := some (Node.text 1 ['h', 'i']), endOffset := 1 } 50 51 100
      = (Node.element 0 "p" [] [Node.text 1 ['h', 'i']], none) :=
  C7_collapsed_capture_noop (Node.element 0 "p" [] [Node.text 1 ['h', 'i']]) none
    { startContainer := some (Node.text 1 ['h', 'i']), startOffset := 1
    , endContainer := some (Node.text 1 ['h', 'i']), endOffset := 1 } 50 51 100 (by decide)

/-- Counterexample to C5: on an ancestor that does not contain the target
leaf (id 99 is not a leaf of the tree), `getTextNodeOffset` raises no
"leaf not found" condition; it returns an ordinary offset value, namely the
total text length of the ancestor. -/
theorem C5_counterexample :
    99 ∉ (textLeaves (Node.element 0 "p" [] [Node.text 1 ['a', 'b']])).map Prod.fst ∧
    getTextNodeOffset (Node.element 0 "p" [] [Node.text 1 ['a', 'b']]) 99 = 2 ∧
    sumLens (textLeaves (Node.element 0 "p" [] [Node.text 1 ['a', 'b']])) = 2 := by
  refine ⟨by decide, ?_, by decide⟩
  rw [getTextNodeOffset_eq]
  decide

/-- C5 amended: for every ancestor node and target leaf such that the
ancestor does not contain the target, the offset calculator does not fail; it
returns the ancestor's total text length (the accumulated lengths of all its
text leaves). -/
theorem C5_amended_offset_total_when_absent (parentElement : Node) (target : Nat)
    (h : target ∉ (textLeaves parentElement).map Prod.fst) :
    getTextNodeOffset parentElement target = sumLens (textLeaves parentElement) := by
  rw [getTextNodeOffset_eq]
  simpa using offsetList_not_mem target (textLeaves parentElement) 0 h

/-- Witness for the amended C5 on a concrete two-leaf ancestor. -/
theorem C5_amended_offset_total_when_absent_witness :
    getTextNodeOffset (Node.element 0 "p" [] [Node.text 1 ['a', 'b'], Node.text 2 ['c']]) 99
      = sumLens (textLeaves
          (Node.element 0 "p" [] [Node.text 1 ['a', 'b'], Node.text 2 ['c']])) :=
  C5_amended_offset_total_when_absent
    (Node.element 0 "p" [] [Node.text 1 ['a', 'b'], Node.text 2 ['c']]) 99 (by decide)

/-- C9: for every decode input whose `textNodeOffset` is positive and exactly
equals the cumulative length of the text leaves up to and including an
earlier (non-empty) leaf T under the located parent element, the decoder
stops at T and returns (T, length of T), an end-of-leaf position, rather than
the following leaf with intra-offset 0 — because its stop test is
`cumulative length >= textNodeOffset` applied after adding the current leaf's
length. -/
theorem C9_decode_stops_at_end_of_leaf (root p : Node) (info : Pos)
    (P Q : List (Nat × Str)) (tid : Nat) (tc : Str)
    (hp : (elementsByTag root info.parentTagName)[info.parentIndex]? = some p)
    (hl : textLeaves p = P ++ (tid, tc) :: Q)
    (hoff : info.textNodeOffset = sumLens P + tc.length)
    (hpos0 : 0 < info.textNodeOffset)
    (hpos : 0 < tc.length) :
    restoreContainer root info = (some (Node.text tid tc), tc.length) := by
  simp only [restoreContainer, hp]
  rw [restoreGo_eq_list, leavesL_singleton, hl]
  rw [restoreList_stop info.textNodeOffset (tid, tc) Q P 0 0
    (by
      intro k hk
      have h1 := sumLens_take_le (k + 1) P
      omega)
    (by show info.textNodeOffset ≤ 0 + sumLens P + tc.length; omega)]
  show (some (Node.text tid tc), info.textNodeOffset - (0 + sumLens P))
    = (some (Node.text tid tc), tc.length)
  have h2 : info.textNodeOffset - (0 + sumLens P) = tc.length := by omega
  rw [h2]

/-- Witness for C9: with leaves "ab", "cd" under the parent and stored offset
2 (the end of "ab"), decode returns ("ab", 2), not ("cd", 0). -/
theorem C9_decode_stops_at_end_of_leaf_witness :
    restoreContainer (Node.element 0 "p" [] [Node.text 1 ['a', 'b'], Node.text 2 ['c', 'd']])
        { parentTagName := "p", parentIndex := 0, textNodeOffset := 2, textNodeLength := 2 }
      = (some (Node.text 1 ['a', 'b']), 2) :=
  C9_decode_stops_at_end_of_leaf
    (Node.element 0 "p" [] [Node.text 1 ['a', 'b'], Node.text 2 ['c', 'd']])
    (Node.element 0 "p" [] [Node.text 1 ['a', 'b'], Node.text 2 ['c', 'd']])
    { parentTagName := "p", parentIndex := 0, textNodeOffset := 2, textNodeLength := 2 }
    [] [(2, ['c', 'd'])] 1 ['a', 'b'] (by rfl) (by rfl) (by decide) (by decide) (by decide)

/-! ### Fully structural twins of the composite operations

The composite operations call the well-founded stack loops, which the kernel
does not evaluate; these twins replace each loop by its structural list
version, with unconditional equations, so concrete instances reduce by
`rfl` and `decide`. -/

/-- Structural twin of `restoreContainer`. -/
def restoreContainerC (root : Node) (nodeInfo : Pos) : Option Node × Nat :=
  match (elementsByTag root nodeInfo.parentTagName)[nodeInfo.parentIndex]? with
  | none => (none, 0)
  | some parentElement =>
    match liftLeaf (restoreList nodeInfo.textNodeOffset (textLeaves parentElement) 0 0) with
    | (some n, fin) => (some n, fin)
    | (none, fin) => (some parentElement, fin)

lemma restoreContainer_eqC (root : Node) (info : Pos) :
    restoreContainer root info = restoreContainerC root info := by
  rw [restoreContainer, restoreContainerC]
  cases (elementsByTag root info.parentTagName)[info.parentIndex]? with
  | none => rfl
  | some p => simp only [restoreGo_eq_list, leavesL_singleton]

/-- Structural twin of `getSelectedTextNodePosition`. -/
def getSelectedTextNodePositionC (root : Node) (selectedTextNode : Nat) : Option Pos :=
  match parentOf root selectedTextNode, findNode root selectedTextNode with
  | some parentElement, some leaf =>
    some { parentTagName := tagOf parentElement
         , parentIndex :=
             ((elementsByTag root (tagOf parentElement)).map idOf).indexOf (idOf parentElement)
         , textNodeOffset := offsetList selectedTextNode (textLeaves parentElement) 0
         , textNodeLength := (dataOf leaf).length }
  | _, _ => none

lemma getSelectedTextNodePosition_eqC (root : Node) (nid : Nat) :
    getSelectedTextNodePosition root nid = getSelectedTextNodePositionC root nid := by
  rw [getSelectedTextNodePosition, getSelectedTextNodePositionC]
  cases parentOf root nid with
  | none => rfl
  | some p =>
    cases findNode root nid with
    | none => rfl
    | some leaf => simp only [getTextNodeOffset_eq]

/-- Structural twin of `decodeEncode`. -/
def decodeEncodeC (root : Node) (leafId : Nat) : Option (Option Node × Nat) :=
  (getSelectedTextNodePositionC root leafId).map (restoreContainerC root)

lemma decodeEncode_eqC (root : Node) (leafId : Nat) :
    decodeEncode root leafId = decodeEncodeC root leafId := by
  rw [decodeEncode, decodeEncodeC, getSelectedTextNodePosition_eqC]
  cases getSelectedTextNodePositionC root leafId with
  | none => rfl
  | some pos => simp [restoreContainer_eqC]

/-- Structural twin of `getSelectedNodes`. -/
def getSelectedNodesC (rootElement : Node) (r : MRange) (f1 f2 : Nat) :
    List (Nat × Str) × Node :=
  if sameTextContainer r.startContainer r.endContainer then
    match r.startContainer with
    | some s => getNodesIfSameStartEnd rootElement s r.startOffset r.endOffset f1 f2
    | none => ([], rootElement)
  else
    (collectList (Option.map idOf r.startContainer) (Option.map idOf r.endContainer)
       r.startOffset r.endOffset f1 (preorder rootElement) false,
     collectDomList (Option.map idOf r.startContainer) (Option.map idOf r.endContainer)
       r.startOffset r.endOffset f1 f2 (preorder rootElement) rootElement)

lemma getSelectedNodes_eqC (rootElement : Node) (r : MRange) (f1 f2 : Nat) :
    getSelectedNodes rootElement r f1 f2 = getSelectedNodesC rootElement r f1 f2 := by
  rw [getSelectedNodes, getSelectedNodesC]
  by_cases h : sameTextContainer r.startContainer r.endContainer = true
  · rw [if_pos h, if_pos h]
  · rw [if_neg h, if_neg h, collectGo_eq_list, preorderL_singleton]

/-- Structural twin of `restoreSelectedNodes`. -/
def restoreSelectedNodesC (root : Node) (startSelectedNode endSelectNode : Pos) : MRange :=
  let s := restoreContainerC root startSelectedNode
  let e := restoreContainerC root endSelectNode
  { startContainer := s.1, startOffset := s.2
  , endContainer := e.1, endOffset := e.2 + endSelectNode.textNodeLength }

lemma restoreSelectedNodes_eqC (root : Node) (a b : Pos) :
    restoreSelectedNodes root a b = restoreSelectedNodesC root a b := by
  rw [restoreSelectedNodes, restoreSelectedNodesC, restoreContainer_eqC, restoreContainer_eqC]

/-- Structural twin of `restoreCore`. -/
def restoreCoreC (root : Node) (startSelectedNode endSelectNode : Pos) (f1 f2 wbase : Nat) :
    Node × List (Nat × Str) :=
  let r := restoreSelectedNodesC root startSelectedNode endSelectNode
  let res := getSelectedNodesC root r f1 f2
  (wrapAll res.2 res.1 wbase, res.1)

lemma restoreCore_eqC (root : Node) (a b : Pos) (f1 f2 wbase : Nat) :
    restoreCore root a b f1 f2 wbase = restoreCoreC root a b f1 f2 wbase := by
  rw [restoreCore, restoreCoreC, restoreSelectedNodes_eqC, getSelectedNodes_eqC]

/-- Structural twin of `restoreFlow`. -/
def restoreFlowC (root : Node) (store : Option (List (Option Pos))) (f1 f2 wbase : Nat) :
    Option (Node × List (Nat × Str)) :=
  match store with
  | none => some (root, [])
  | some stored =>
    match stored[0]?, stored[1]? with
    | some (some startSelectedNode), some (some endSelectNode) =>
      some (restoreCoreC root startSelectedNode endSelectNode f1 f2 wbase)
    | _, _ => none

lemma restoreFlow_eqC (root : Node) (store : Option (List (Option Pos))) (f1 f2 wbase : Nat) :
    restoreFlow root store f1 f2 wbase = restoreFlowC root store f1 f2 wbase := by
  rw [restoreFlow.eq_def, restoreFlowC.eq_def]
  simp only [restoreCore_eqC]

/-! ### Claim C2: the codec round trip -/

lemma leaf_fst_sublist (l : List Node) :
    List.Sublist ((l.filterMap textOf).map Prod.fst) (l.map idOf) := by
  induction l with
  | nil => simp
  | cons n ns ih =>
    cases n with
    | text i c => simpa [textOf, idOf] using ih.cons₂
    | element i t s cs => simpa [textOf, idOf] using List.Sublist.cons i ih

/-- A node of the tree owns a contiguous block of the tree's pre-order. -/
lemma preorder_infix (k : Nat) :
    ∀ root p, sizeN root ≤ k → p ∈ preorder root →
      ∃ X Y, preorder root = X ++ (preorder p ++ Y) := by
  induction k with
  | zero =>
    intro root p hk _
    have := sizeN_pos root
    omega
  | succ k ih =>
    intro root p hk hp
    cases root with
    | text i c =>
      simp [preorder] at hp
      subst hp
      exact ⟨[], [], by simp⟩
    | element i t s cs =>
      simp only [preorder, List.mem_cons] at hp
      rcases hp with rfl | hp2
      · exact ⟨[], [], by simp [preorder]⟩
      · rcases (mem_preorderL_iff p cs).mp hp2 with ⟨ch, hch, hpc⟩
        obtain ⟨as, bs, rfl⟩ := List.append_of_mem hch
        have hsz : sizeN ch ≤ k := by
          have h1 := sizeN_le_of_mem ch (as ++ ch :: bs) (by simp)
          simp only [sizeN] at hk
          omega
        obtain ⟨X, Y, hXY⟩ := ih ch p hsz hpc
        refine ⟨Node.element i t s (as ++ ch :: bs) :: (preorderL as ++ X),
          Y ++ preorderL bs, ?_⟩
        have h2 : preorderL (as ++ ch :: bs) = preorderL as ++ (preorder ch ++ preorderL bs) := by
          rw [preorderL_append, preorderL]
        rw [preorder, h2, hXY]
        simp [List.append_assoc]

lemma find?_by_id_at (l : List Node) (n : Node) (tid : Nat) (hnd : (l.map idOf).Nodup)
    (hmem : n ∈ l) (hid : idOf n = tid) :
    l.find? (fun m => idOf m == tid) = some n := by
  subst hid
  exact find?_by_id l n hnd hmem

/-- Counterexample to C2: in the tree `<html><p>ab|cd</p></html>` (two text
leaves under one paragraph), decoding the address encoded from the second
leaf "cd" yields the first leaf "ab" with offset 2 (the end-of-leaf position
where "cd" starts), not the leaf "cd" itself. -/
theorem C2_counterexample :
    decodeEncode
        (Node.element 0 "html" []
          [Node.element 1 "p" [] [Node.text 2 ['a', 'b'], Node.text 3 ['c', 'd']]]) 3
      = some (some (Node.text 2 ['a', 'b']), 2) ∧
    Node.text 2 ['a', 'b'] ≠ Node.text 3 ['c', 'd'] := by
  constructor
  · rw [decodeEncode_eqC]
    rfl
  · intro h
    injection h with h1 h2
    exact absurd h1 (by decide)

/-- C2 amended: for a text leaf L of an unmodified tree with pairwise
distinct ids, `restoreContainer (getSelectedTextNodePosition L)` returns a
text-leaf position denoting the same character position within L's parent as
the start of L (decoded leaf's own start offset plus the returned intra-leaf
offset equals L's start offset); it is the pair (L, 0) itself exactly when no
text leaf precedes L under its parent, and otherwise an earlier leaf at its
end — not L. -/
theorem C2_amended_decode_encode_same_position (root p : Node) (lid : Nat) (c : Str)
    (P Q : List (Nat × Str))
    (hnd : ((preorder root).map idOf).Nodup)
    (hpar : parentOf root lid = some p)
    (hPQ : textLeaves p = P ++ (lid, c) :: Q) :
    (∃ mid mc fin, decodeEncode root lid = some (some (Node.text mid mc), fin) ∧
        getTextNodeOffset p mid + fin = getTextNodeOffset p lid) ∧
    (P = [] → decodeEncode root lid = some (some (Node.text lid c), 0)) := by
  have hpmem : p ∈ preorder root := List.mem_of_find?_eq_some hpar
  have hppred := List.find?_some hpar
  obtain ⟨X, Y, hXY⟩ := preorder_infix (sizeN root) root p le_rfl hpmem
  have hndp : ((preorder p).map idOf).Nodup := by
    have hsub : (preorder p).Sublist (preorder root) := by
      rw [hXY]
      exact (List.sublist_append_left (preorder p) Y).trans
        (List.sublist_append_right X (preorder p ++ Y))
    exact List.Nodup.sublist (hsub.map idOf) hnd
  have hleafnd : ((textLeaves p).map Prod.fst).Nodup :=
    List.Nodup.sublist (by simpa [textLeaves] using leaf_fst_sublist (preorder p)) hndp
  have hids := hleafnd
  rw [hPQ] at hids
  have hmapPQ : (P ++ (lid, c) :: Q).map Prod.fst = P.map Prod.fst ++ lid :: Q.map Prod.fst := by
    simp
  rw [hmapPQ] at hids
  have hdisj := List.disjoint_of_nodup_append hids
  have hlidP : lid ∉ P.map Prod.fst := fun h => hdisj h (by simp)
  have hfind : findNode root lid = some (Node.text lid c) := by
    have hmem0 : (lid, c) ∈ textLeaves p := by rw [hPQ]; simp
    have hmem1 : Node.text lid c ∈ preorder p := by
      rcases List.mem_filterMap.mp (by simpa [textLeaves] using hmem0) with ⟨a, ha, hta⟩
      cases a with
      | text i d =>
        simp only [textOf, Option.some.injEq, Prod.mk.injEq] at hta
        obtain ⟨rfl, rfl⟩ := hta
        exact ha
      | element i t s cs => simp [textOf] at hta
    have hmem2 : Node.text lid c ∈ preorder root :=
      mem_preorder_trans (sizeN root) root (Node.text lid c) p le_rfl hpmem hmem1
    rw [findNode]
    exact find?_by_id_at (preorder root) (Node.text lid c) lid hnd hmem2 rfl
  have hoff : getTextNodeOffset p lid = sumLens P := by
    rw [getTextNodeOffset_eq, hPQ]
    simpa using offsetList_found lid c Q P 0 hlidP
  have henc : getSelectedTextNodePosition root lid = some
      { parentTagName := tagOf p
      , parentIndex := ((elementsByTag root (tagOf p)).map idOf).indexOf (idOf p)
      , textNodeOffset := getTextNodeOffset p lid
      , textNodeLength := c.length } := by
    simp only [getSelectedTextNodePosition, hpar, hfind, dataOf]
  have hlook : (elementsByTag root
      (tagOf p))[((elementsByTag root (tagOf p)).map idOf).indexOf (idOf p)]? = some p := by
    apply getElem?_indexOf_id
    · exact List.Nodup.sublist ((List.filter_sublist (preorder root)).map idOf) hnd
    · apply List.mem_filter.mpr
      refine ⟨hpmem, ?_⟩
      cases p with
      | text i d => simp [childrenOf] at hppred
      | element i t s cs => simp [isElementWithTag, tagOf]
  obtain ⟨m, f, hm⟩ := restoreList_finds (sumLens P) (textLeaves p) 0 0
    (by rw [hPQ]; simp) (by rw [hPQ, sumLens_append, sumLens_cons]; omega)
  obtain ⟨P2, Q2, hPQ2, hf, hle2, hge2⟩ :=
    restoreList_sound (sumLens P) (textLeaves p) 0 0 m f (Nat.zero_le _) hm
  have hm1P2 : m.1 ∉ P2.map Prod.fst := by
    have hids2 := hleafnd
    rw [hPQ2] at hids2
    have hmap2 : (P2 ++ m :: Q2).map Prod.fst = P2.map Prod.fst ++ m.1 :: Q2.map Prod.fst := by
      simp
    rw [hmap2] at hids2
    exact fun h => List.disjoint_of_nodup_append hids2 h (by simp)
  have hoffm : getTextNodeOffset p m.1 = sumLens P2 := by
    rw [getTextNodeOffset_eq, hPQ2]
    obtain ⟨m1, m2⟩ := m
    simpa using offsetList_found m1 m2 Q2 P2 0 hm1P2
  have hdec : restoreContainer root
      { parentTagName := tagOf p
      , parentIndex := ((elementsByTag root (tagOf p)).map idOf).indexOf (idOf p)
      , textNodeOffset := getTextNodeOffset p lid
      , textNodeLength := c.length } = (some (Node.text m.1 m.2), f) := by
    simp only [restoreContainer, hlook]
    rw [restoreGo_eq_list, leavesL_singleton, hoff, hm]
    rfl
  have hmain : decodeEncode root lid = some (some (Node.text m.1 m.2), f) := by
    rw [decodeEncode, henc, Option.map_some', hdec]
  constructor
  · exact ⟨m.1, m.2, f, hmain, by rw [hoffm, hoff]; omega⟩
  · intro hP
    have hm0 : restoreList (sumLens P) (textLeaves p) 0 0 = (some (lid, c), 0) := by
      subst hP
      rw [hPQ, List.nil_append, restoreList, if_pos (by simp [sumLens])]
      simp [sumLens]
    rw [hm] at hm0
    obtain ⟨hma, hfb⟩ := Prod.mk.injEq .. ▸ hm0
    have hmeq : m = (lid, c) := Option.some.inj hma
    rw [hmain, hmeq, hfb]

/-- Witness for the amended C2 on the counterexample tree: the decoded pair
(leaf "ab", offset 2) denotes the same position as the start of leaf "cd". -/
theorem C2_amended_decode_encode_same_position_witness :
    (∃ mid mc fin,
        decodeEncode
            (Node.element 0 "html" []
              [Node.element 1 "p" [] [Node.text 2 ['a', 'b'], Node.text 3 ['c', 'd']]]) 3
          = some (some (Node.text mid mc), fin) ∧
        getTextNodeOffset (Node.element 1 "p" [] [Node.text 2 ['a', 'b'], Node.text 3 ['c', 'd']])
            mid + fin
          = getTextNodeOffset
              (Node.element 1 "p" [] [Node.text 2 ['a', 'b'], Node.text 3 ['c', 'd']]) 3) ∧
    ([(2, ['a', 'b'])] = ([] : List (Nat × Str)) →
      decodeEncode
          (Node.element 0 "html" []
            [Node.element 1 "p" [] [Node.text 2 ['a', 'b'], Node.text 3 ['c', 'd']]]) 3
        = some (some (Node.text 3 ['c', 'd']), 0)) :=
  C2_amended_decode_encode_same_position
    (Node.element 0 "html" []
      [Node.element 1 "p" [] [Node.text 2 ['a', 'b'], Node.text 3 ['c', 'd']]])
    (Node.element 1 "p" [] [Node.text 2 ['a', 'b'], Node.text 3 ['c', 'd']])
    3 ['c', 'd'] [(2, ['a', 'b'])] [] (by decide) (by rfl) (by rfl)

/-! ### Claim C4: failed address lookups at restore time -/

/-- With no start and no end container (both lookups failed), the collector
collects nothing. -/
lemma collectList_none (so eo f1 : Nat) (ns : List Node) :
    collectList none none so eo f1 ns false = [] := by
  induction ns with
  | nil => rfl
  | cons n rest ih =>
    rw [collectList, if_neg (by simp), if_neg (by simp), if_neg (by simp)]
    exact ih

/-- With no start and no end container, the collector never splits the
document. -/
lemma collectDomList_none (so eo f1 f2 : Nat) (ns : List Node) (dom : Node) :
    collectDomList none none so eo f1 f2 ns dom = dom := by
  induction ns with
  | nil => rfl
  | cons n rest ih =>
    rw [collectDomList, if_neg (by simp), if_neg (by simp)]
    exact ih

/-- Counterexample to C4: a stored selection whose START address is out of
range (no "q" element) while the end address resolves still wraps a leaf:
the end leaf's prefix is collected (the end branch of the traversal fires
regardless of the `withinSelectedRange` flag) and then highlighted. -/
theorem C4_counterexample :
    (restoreFlow
        (Node.element 0 "html" []
          [Node.element 1 "p" [] [Node.text 2 ['H', 'e', 'l', 'l', 'o']]])
        (some [some { parentTagName := "q", parentIndex := 0
                    , textNodeOffset := 0, textNodeLength := 0 },
               some { parentTagName := "p", parentIndex := 0
                    , textNodeOffset := 0, textNodeLength := 5 }])
        50 51 100).map Prod.snd
      = some [(2, ['H', 'e', 'l', 'l', 'o'])] ∧
    (some [(2, ['H', 'e', 'l', 'l', 'o'])] : Option (List (Nat × Str))) ≠ some [] := by
  constructor
  · rw [restoreFlow_eqC]
    rfl
  · decide

/-- C4 amended: when BOTH stored addresses fail to locate their element
(index out of range for the tag), the restore pass is contained: it runs to
completion without any failure, collects nothing and wraps no leaf, leaving
the document unchanged.  When only one address fails, leaves can still be
wrapped (see the counterexample). -/
theorem C4_amended_restore_both_misses_noop (root : Node) (a b : Pos) (f1 f2 wbase : Nat)
    (ha : (elementsByTag root a.parentTagName)[a.parentIndex]? = none)
    (hb : (elementsByTag root b.parentTagName)[b.parentIndex]? = none) :
    restoreFlow root (some [some a, some b]) f1 f2 wbase = some (root, []) := by
  rw [restoreFlow_eqC]
  have h1 : restoreFlowC root (some [some a, some b]) f1 f2 wbase
      = some (restoreCoreC root a b f1 f2 wbase) := rfl
  rw [h1]
  have hra : restoreContainerC root a = (none, 0) := by
    simp only [restoreContainerC, ha]
  have hrb : restoreContainerC root b = (none, 0) := by
    simp only [restoreContainerC, hb]
  have hrange : restoreSelectedNodesC root a b
      = { startContainer := none, startOffset := 0
        , endContainer := none, endOffset := b.textNodeLength } := by
    rw [restoreSelectedNodesC]
    simp [hra, hrb]
  rw [restoreCoreC, hrange]
  have hsel : getSelectedNodesC root
      { startContainer := none, startOffset := 0
      , endContainer := none, endOffset := b.textNodeLength } f1 f2 = ([], root) := by
    rw [getSelectedNodesC]
    rw [if_neg (by simp [sameTextContainer])]
    simp only [Option.map_none']
    rw [collectList_none, collectDomList_none]
  simp [hsel, wrapAll]

/-- Witness for the amended C4: both addresses name a tag with no elements;
restore returns the document unchanged with nothing wrapped. -/
theorem C4_amended_restore_both_misses_noop_witness :
    restoreFlow
        (Node.element 0 "html" []
          [Node.element 1 "p" [] [Node.text 2 ['H', 'e', 'l', 'l', 'o']]])
        (some [some { parentTagName := "q", parentIndex := 0
                    , textNodeOffset := 0, textNodeLength := 0 },
               some { parentTagName := "q", parentIndex := 3
                    , textNodeOffset := 1, textNodeLength := 2 }])
        50 51 100
      = some (Node.element 0 "html" []
          [Node.element 1 "p" [] [Node.text 2 ['H', 'e', 'l', 'l', 'o']]], []) :=
  C4_amended_restore_both_misses_noop
    (Node.element 0 "html" []
      [Node.element 1 "p" [] [Node.text 2 ['H', 'e', 'l', 'l', 'o']]])
    { parentTagName := "q", parentIndex := 0, textNodeOffset := 0, textNodeLength := 0 }
    { parentTagName := "q", parentIndex := 3, textNodeOffset := 1, textNodeLength := 2 }
    50 51 100 (by rfl) (by rfl)

/-! ### Claim C3: same-leaf selection and concrete scenario A -/

/-- Structural twin of `storeSelectedNodes`. -/
def storeSelectedNodesC (root : Node) (selectedTextNodes : List (Option (Nat × Str))) :
    List (Option Pos) :=
  selectedTextNodes.map (fun o => o.bind (fun x => getSelectedTextNodePositionC root x.1))

lemma storeSelectedNodes_eqC (root : Node) (ns : List (Option (Nat × Str))) :
    storeSelectedNodes root ns = storeSelectedNodesC root ns := by
  rw [storeSelectedNodes, storeSelectedNodesC]
  simp only [getSelectedTextNodePosition_eqC]

/-- Taking a prefix and then dropping commutes to dropping and taking the
difference: both give the slice between the two cut points. -/
lemma take_drop_comm {α : Type} :
    ∀ (c : List α) (so eo : Nat), (c.take eo).drop so = (c.drop so).take (eo - so) := by
  intro c
  induction c with
  | nil => intro so eo; simp
  | cons x xs ih =>
    intro so eo
    cases so with
    | zero => simp
    | succ s =>
      cases eo with
      | zero => simp
      | succ e =>
        rw [List.take_succ_cons, List.drop_succ_cons, List.drop_succ_cons, ih s e,
          Nat.succ_sub_succ]

/-- C3: when the selection's start and end positions lie in the same text
leaf with content c (offsets so ≤ eo ≤ |c|), the range collector returns
exactly one leaf whose content is the substring of c from so to eo; and in
the concrete tree `<p>Hello</p><p>World</p>` with positions 2–5 of the first
paragraph the collected leaves are ["llo"] and both stored addresses equal
{parentTagName := "p", parentIndex := 0, textNodeOffset := 2,
textNodeLength := 3}. -/
theorem C3_same_leaf_selection :
    (∀ (root : Node) (i : Nat) (c : Str) (so eo f1 f2 : Nat), so ≤ eo → eo ≤ c.length →
      (getSelectedNodes root
          { startContainer := some (Node.text i c), startOffset := so
          , endContainer := some (Node.text i c), endOffset := eo } f1 f2).1
        = [(f1, (c.take eo).drop so)]) ∧
    ((getSelectedNodes
        (Node.element 0 "html" []
          [Node.element 1 "p" [] [Node.text 2 ['H', 'e', 'l', 'l', 'o']],
           Node.element 3 "p" [] [Node.text 4 ['W', 'o', 'r', 'l', 'd']]])
        { startContainer := some (Node.text 2 ['H', 'e', 'l', 'l', 'o']), startOffset := 2
        , endContainer := some (Node.text 2 ['H', 'e', 'l', 'l', 'o']), endOffset := 5 }
        10 11).1
      = [(10, ['l', 'l', 'o'])] ∧
     storeSelectedNodes
        (getSelectedNodes
          (Node.element 0 "html" []
            [Node.element 1 "p" [] [Node.text 2 ['H', 'e', 'l', 'l', 'o']],
             Node.element 3 "p" [] [Node.text 4 ['W', 'o', 'r', 'l', 'd']]])
          { startContainer := some (Node.text 2 ['H', 'e', 'l', 'l', 'o']), startOffset := 2
          , endContainer := some (Node.text 2 ['H', 'e', 'l', 'l', 'o']), endOffset := 5 }
          10 11).2
        [(getSelectedNodes
            (Node.element 0 "html" []
              [Node.element 1 "p" [] [Node.text 2 ['H', 'e', 'l', 'l', 'o']],
               Node.element 3 "p" [] [Node.text 4 ['W', 'o', 'r', 'l', 'd']]])
            { startContainer := some (Node.text 2 ['H', 'e', 'l', 'l', 'o']), startOffset := 2
            , endContainer := some (Node.text 2 ['H', 'e', 'l', 'l', 'o']), endOffset := 5 }
            10 11).1.head?,
         (getSelectedNodes
            (Node.element 0 "html" []
              [Node.element 1 "p" [] [Node.text 2 ['H', 'e', 'l', 'l', 'o']],
               Node.element 3 "p" [] [Node.text 4 ['W', 'o', 'r', 'l', 'd']]])
            { startContainer := some (Node.text 2 ['H', 'e', 'l', 'l', 'o']), startOffset := 2
            , endContainer := some (Node.text 2 ['H', 'e', 'l', 'l', 'o']), endOffset := 5 }
            10 11).1.getLast?]
       = [some { parentTagName := "p", parentIndex := 0
               , textNodeOffset := 2, textNodeLength := 3 },
          some { parentTagName := "p", parentIndex := 0
               , textNodeOffset := 2, textNodeLength := 3 }]) := by
  refine ⟨?_, ?_, ?_⟩
  · intro root i c so eo f1 f2 hso heo
    rw [getSelectedNodes]
    rw [if_pos (by simp [sameTextContainer, isTextNode])]
    show (getNodesIfSameStartEnd root (Node.text i c) so eo f1 f2).1 = _
    rw [getNodesIfSameStartEnd]
    show [(f1, ((dataOf (Node.text i c)).drop so).take (eo - so))] = _
    rw [take_drop_comm]
    rfl
  · rw [getSelectedNodes_eqC]
    rfl
  · rw [getSelectedNodes_eqC, storeSelectedNodes_eqC]
    rfl

/-- Witness for the universal part of C3 at a concrete leaf and offsets. -/
theorem C3_same_leaf_selection_witness :
    1 ≤ 3 ∧ 3 ≤ (['a', 'b', 'c', 'd'] : Str).length ∧
    (getSelectedNodes (Node.element 9 "body" [] [Node.text 5 ['a', 'b', 'c', 'd']])
        { startContainer := some (Node.text 5 ['a', 'b', 'c', 'd']), startOffset := 1
        , endContainer := some (Node.text 5 ['a', 'b', 'c', 'd']), endOffset := 3 } 20 21).1
      = [(20, ((['a', 'b', 'c', 'd'] : Str).take 3).drop 1)] :=
  ⟨by decide, by decide,
    C3_same_leaf_selection.1 (Node.element 9 "body" [] [Node.text 5 ['a', 'b', 'c', 'd']])
      5 ['a', 'b', 'c', 'd'] 1 3 20 21 (by decide) (by decide)⟩

/-! ### Claim C1: the collector reproduces the plain text between the
boundaries -/

lemma textBeforeL_cons_ne (nid : Nat) (n : Node) (rest : List Node) (h : idOf n ≠ nid) :
    textBeforeL nid (n :: rest) = (dataOf n).length + textBeforeL nid rest := by
  rw [textBeforeL, if_neg h]

/-- C1 amended: for every tree with pairwise distinct ids and every valid
boundary pair whose containers are BOTH text leaves, with the start leaf
before the end leaf in pre-order, `getSelectedNodes` returns the start
suffix, the intermediate text leaves in document pre-order, and the end
prefix; their concatenated contents equal the plain-text content lying
between the two boundary positions.  (The original claim over all valid
boundary pairs fails for element containers, see the counterexample.) -/
theorem C1_amended_collect_equals_text_between (root : Node) (A B C2 : List Node)
    (sid tid so eo f1 f2 : Nat) (cS cT : Str)
    (hpre : preorder root = A ++ (Node.text sid cS :: (B ++ (Node.text tid cT :: C2))))
    (hnd : ((preorder root).map idOf).Nodup)
    (hso : so ≤ cS.length) (heo : eo ≤ cT.length) :
    (getSelectedNodes root
        { startContainer := some (Node.text sid cS), startOffset := so
        , endContainer := some (Node.text tid cT), endOffset := eo } f1 f2).1
      = (f1, cS.drop so) :: (B.filterMap textOf ++ [(tid, cT.take eo)]) ∧
    (((getSelectedNodes root
        { startContainer := some (Node.text sid cS), startOffset := so
        , endContainer := some (Node.text tid cT), endOffset := eo } f1 f2).1.map
          (fun x => x.2)).flatten
      = plainTextBetween root (boundaryAbs root (Node.text sid cS) so)
          (boundaryAbs root (Node.text tid cT) eo)) := by
  have h1 := hnd
  rw [hpre] at h1
  simp only [List.map_append, List.map_cons, idOf] at h1
  obtain ⟨hA, h2, hdisjA⟩ := List.nodup_append.mp h1
  obtain ⟨hsidnot, h3⟩ := List.nodup_cons.mp h2
  obtain ⟨hB, h4, hdisjB⟩ := List.nodup_append.mp h3
  obtain ⟨htidnot, h5⟩ := List.nodup_cons.mp h4
  have hst : sid ≠ tid := fun h => hsidnot (h ▸ List.mem_append_right _ (List.mem_cons_self _ _))
  have hAs : ∀ n ∈ A, some (idOf n) ≠ some sid := fun n hn h =>
    hdisjA (List.mem_map_of_mem idOf hn) (Option.some.inj h ▸ List.mem_cons_self _ _)
  have hAe : ∀ n ∈ A, some (idOf n) ≠ some tid := fun n hn h =>
    hdisjA (List.mem_map_of_mem idOf hn)
      (Option.some.inj h ▸
        List.mem_cons_of_mem _ (List.mem_append_right _ (List.mem_cons_self _ _)))
  have hBs : ∀ n ∈ B, some (idOf n) ≠ some sid := fun n hn h =>
    hsidnot (Option.some.inj h ▸ List.mem_append_left _ (List.mem_map_of_mem idOf hn))
  have hBe : ∀ n ∈ B, some (idOf n) ≠ some tid := fun n hn h =>
    hdisjB (List.mem_map_of_mem idOf hn) (Option.some.inj h ▸ List.mem_cons_self _ _)
  have hsidA : sid ∉ A.map idOf := fun h => hdisjA h (List.mem_cons_self _ _)
  have htidA : tid ∉ A.map idOf := fun h =>
    hdisjA h (List.mem_cons_of_mem _ (List.mem_append_right _ (List.mem_cons_self _ _)))
  have htidB : tid ∉ B.map idOf := fun h => hdisjB h (List.mem_cons_self _ _)
  have hcoll : (getSelectedNodes root
      { startContainer := some (Node.text sid cS), startOffset := so
      , endContainer := some (Node.text tid cT), endOffset := eo } f1 f2).1
      = (f1, cS.drop so) :: (B.filterMap textOf ++ [(tid, cT.take eo)]) := by
    rw [getSelectedNodes_eqC, getSelectedNodesC]
    rw [if_neg (by simp [sameTextContainer, idOf, isTextNode, hst])]
    show collectList (some sid) (some tid) so eo f1 (preorder root) false = _
    rw [hpre,
      collectList_skip (some sid) (some tid) so eo f1
        (Node.text sid cS :: (B ++ (Node.text tid cT :: C2))) A hAs hAe]
    rw [collectList, if_pos (show some (idOf (Node.text sid cS)) = some sid by simp [idOf])]
    rw [if_pos (show isTextNode (Node.text sid cS) = true from rfl)]
    rw [collectList_within (some sid) (some tid) so eo f1
      (Node.text tid cT :: C2) B hBs hBe]
    rw [collectList,
      if_neg (show ¬(some (idOf (Node.text tid cT)) = some sid) from by
        simp only [idOf, Option.some.injEq]
        exact fun h => hst h.symm),
      if_pos (show some (idOf (Node.text tid cT)) = some tid by simp [idOf])]
    rw [if_pos (show isTextNode (Node.text tid cT) = true from rfl)]
    simp [dataOf, idOf]
  refine ⟨hcoll, ?_⟩
  rw [hcoll]
  have hpS : boundaryAbs root (Node.text sid cS) so = sumLens (A.filterMap textOf) + so := by
    rw [boundaryAbs, textBefore, hpre, textBeforeL_append sid _ A hsidA,
      textBeforeL_self sid (Node.text sid cS) _ rfl]
    omega
  have hpT : boundaryAbs root (Node.text tid cT) eo
      = sumLens (A.filterMap textOf) + cS.length + sumLens (B.filterMap textOf) + eo := by
    rw [boundaryAbs, textBefore, hpre, textBeforeL_append tid _ A htidA,
      textBeforeL_cons_ne tid (Node.text sid cS) _ (by simp only [idOf]; exact hst),
      textBeforeL_append tid _ B htidB,
      textBeforeL_self tid (Node.text tid cT) _ rfl]
    simp only [dataOf]
    omega
  have hfull : fullText root
      = ((A.filterMap textOf).map (fun x => x.2)).flatten ++ (cS ++
          (((B.filterMap textOf).map (fun x => x.2)).flatten ++ (cT ++
            ((C2.filterMap textOf).map (fun x => x.2)).flatten))) := by
    rw [fullText, textLeaves, hpre]
    simp [List.filterMap_append, List.filterMap_cons, textOf]
  rw [plainTextBetween, hfull, hpS, hpT]
  have e2 : sumLens (A.filterMap textOf) + cS.length + sumLens (B.filterMap textOf) + eo
      - (sumLens (A.filterMap textOf) + so)
      = (cS.drop so).length
        + ((((B.filterMap textOf).map (fun x => x.2)).flatten).length + eo) := by
    rw [List.length_drop, flatten_snd_length]
    omega
  rw [e2]
  have e1 : sumLens (A.filterMap textOf) + so
      = (((A.filterMap textOf).map (fun x => x.2)).flatten).length + so := by
    rw [flatten_snd_length]
  rw [e1, drop_len_add, drop_append_le cS _ so hso, take_len_add, take_len_add,
    take_append_le cT _ eo heo]
  simp [List.append_assoc]

/-- Witness for the amended C1: in the tree `<p>Hello</p><p>World</p>` with
the selection spanning "lo" through "Wor", the collected leaves are "lo" and
"Wor" and their concatenation is the plain text between the two positions. -/
theorem C1_amended_collect_equals_text_between_witness :
    (getSelectedNodes
        (Node.element 0 "html" []
          [Node.element 1 "p" [] [Node.text 2 ['H', 'e', 'l', 'l', 'o']],
           Node.element 3 "p" [] [Node.text 4 ['W', 'o', 'r', 'l', 'd']]])
        { startContainer := some (Node.text 2 ['H', 'e', 'l', 'l', 'o']), startOffset := 3
        , endContainer := some (Node.text 4 ['W', 'o', 'r', 'l', 'd']), endOffset := 3 }
        50 51).1
      = (50, (['H', 'e', 'l', 'l', 'o'] : Str).drop 3)
        :: ([Node.element 3 "p" [] [Node.text 4 ['W', 'o', 'r', 'l', 'd']]].filterMap textOf
            ++ [(4, (['W', 'o', 'r', 'l', 'd'] : Str).take 3)]) ∧
    (((getSelectedNodes
        (Node.element 0 "html" []
          [Node.element 1 "p" [] [Node.text 2 ['H', 'e', 'l', 'l', 'o']],
           Node.element 3 "p" [] [Node.text 4 ['W', 'o', 'r', 'l', 'd']]])
        { startContainer := some (Node.text 2 ['H', 'e', 'l', 'l', 'o']), startOffset := 3
        , endContainer := some (Node.text 4 ['W', 'o', 'r', 'l', 'd']), endOffset := 3 }
        50 51).1.map (fun x => x.2)).flatten
      = plainTextBetween
          (Node.element 0 "html" []
            [Node.element 1 "p" [] [Node.text 2 ['H', 'e', 'l', 'l', 'o']],
             Node.element 3 "p" [] [Node.text 4 ['W', 'o', 'r', 'l', 'd']]])
          (boundaryAbs
            (Node.element 0 "html" []
              [Node.element 1 "p" [] [Node.text 2 ['H', 'e', 'l', 'l', 'o']],
               Node.element 3 "p" [] [Node.text 4 ['W', 'o', 'r', 'l', 'd']]])
            (Node.text 2 ['H', 'e', 'l', 'l', 'o']) 3)
          (boundaryAbs
            (Node.element 0 "html" []
              [Node.element 1 "p" [] [Node.text 2 ['H', 'e', 'l', 'l', 'o']],
               Node.element 3 "p" [] [Node.text 4 ['W', 'o', 'r', 'l', 'd']]])
            (Node.text 4 ['W', 'o', 'r', 'l', 'd']) 3)) :=
  C1_amended_collect_equals_text_between
    (Node.element 0 "html" []
      [Node.element 1 "p" [] [Node.text 2 ['H', 'e', 'l', 'l', 'o']],
       Node.element 3 "p" [] [Node.text 4 ['W', 'o', 'r', 'l', 'd']]])
    [Node.element 0 "html" []
      [Node.element 1 "p" [] [Node.text 2 ['H', 'e', 'l', 'l', 'o']],
       Node.element 3 "p" [] [Node.text 4 ['W', 'o', 'r', 'l', 'd']]],
     Node.element 1 "p" [] [Node.text 2 ['H', 'e', 'l', 'l', 'o']]]
    [Node.element 3 "p" [] [Node.text 4 ['W', 'o', 'r', 'l', 'd']]] []
    2 4 3 3 50 51 ['H', 'e', 'l', 'l', 'o'] ['W', 'o', 'r', 'l', 'd']
    (by rfl) (by decide) (by decide) (by decide)

/-- Counterexample to C1: with a valid boundary pair whose END container is
an element node (end before child 1 of the second paragraph, i.e. after
"cd"), the collected content is "ab" while the plain text lying between the
two positions is "abcd": the traversal breaks at the end element without
collecting anything inside it. -/
theorem C1_counterexample :
    (((getSelectedNodes
        (Node.element 0 "html" []
          [Node.element 1 "p" [] [Node.text 2 ['a', 'b']],
           Node.element 3 "p" [] [Node.text 4 ['c', 'd']]])
        { startContainer := some (Node.text 2 ['a', 'b']), startOffset := 0
        , endContainer := some (Node.element 3 "p" [] [Node.text 4 ['c', 'd']]), endOffset := 1 }
        50 51).1.map (fun x => x.2)).flatten = ['a', 'b']) ∧
    plainTextBetween
        (Node.element 0 "html" []
          [Node.element 1 "p" [] [Node.text 2 ['a', 'b']],
           Node.element 3 "p" [] [Node.text 4 ['c', 'd']]])
        (boundaryAbs
          (Node.element 0 "html" []
            [Node.element 1 "p" [] [Node.text 2 ['a', 'b']],
             Node.element 3 "p" [] [Node.text 4 ['c', 'd']]])
          (Node.text 2 ['a', 'b']) 0)
        (boundaryAbs
          (Node.element 0 "html" []
            [Node.element 1 "p" [] [Node.text 2 ['a', 'b']],
             Node.element 3 "p" [] [Node.text 4 ['c', 'd']]])
          (Node.element 3 "p" [] [Node.text 4 ['c', 'd']]) 1)
      = ['a', 'b', 'c', 'd'] ∧
    (['a', 'b'] : Str) ≠ ['a', 'b', 'c', 'd'] := by
  refine ⟨?_, by rfl, by decide⟩
  rw [getSelectedNodes_eqC]
  rfl

end Study
